import Mathlib

/-!
Shallow embedding of the dynasm runtime assembler (`src/runtime/src/x64.rs`).

Machine bytes are modelled as `Nat` values (kept below 256 by construction),
buffers as `List Nat`, `usize` offsets as `Nat`, and signed displacement
arithmetic over `Int`.  Rust panics (index out of bounds, `usize`
underflow, invalid patch size, unknown label, duplicate label) are modelled
as `Except AsmError` errors; `HashMap` fields are modelled as association
lists whose insert replaces every entry with the same key, so that `lookup`
agrees with the map semantics.
-/

namespace Dynasm

/-- `PatchLoc(usize, u8)` from x64.rs: `end_offset` is the absolute offset of
the byte just past the relocation field, `size` the field width in bytes. -/
structure PatchLoc where
  end_offset : Nat
  size : Nat
  deriving Repr, DecidableEq

/-- Modelled from the spec: the executable mapping collaborator.  `buffer` is
the full mapped region (capacity `cap = buffer.length` bytes, zero
initialised), `length` the number of live code bytes.  The W↔X protection
flips (`make_mut` / `make_exec`) do not change the data, so a single
structure stands for both `ExecutableBuffer` and `MutableBuffer`. -/
structure ExecutableBuffer where
  buffer : List Nat
  length : Nat
  deriving Repr, DecidableEq

/-- Error kinds for operations that panic in the Rust source.  `Fault`
covers contract panics that the spec does not give a name to (slice index
out of bounds, `usize` underflow, invalid patch size). -/
inductive AsmError where
  | UnknownLabel
  | DuplicateLabel
  | Fault
  deriving Repr, DecidableEq

/-- Little-endian byte decomposition of a value into `w` bytes, as done by
`byteorder::LittleEndian::write_iN` on the two's-complement bit pattern. -/
def bytesLE : Nat → Nat → List Nat
  | 0, _ => []
  | w + 1, v => v % 256 :: bytesLE w (v / 256)

/-- Truncation of a signed value to `bits` bits, giving its two's-complement
bit pattern: `target as iN` in Rust. -/
def truncI (bits : Nat) (d : Int) : Nat := (d % ((2 : Int) ^ bits)).toNat

/-- The `match loc.1` dispatch inside `patch_loc`: write the displacement
truncated to the patch width as little-endian bytes; any width outside
{1,2,4,8} hits the `invalid patch size` panic. -/
def write_i (size : Nat) (d : Int) : Except AsmError (List Nat) :=
  if size = 1 then .ok (bytesLE 1 (truncI 8 d))
  else if size = 2 then .ok (bytesLE 2 (truncI 16 d))
  else if size = 4 then .ok (bytesLE 4 (truncI 32 d))
  else if size = 8 then .ok (bytesLE 8 (truncI 64 d))
  else .error .Fault

/-- Spec-side encoding (§3 PatchLoc): the signed displacement truncated to
`size` bytes and encoded little-endian two's complement; byte `i` is
`(disp mod 2^(8·size)) / 256^i mod 256`. -/
def encodeLE (size : Nat) (disp : Int) : List Nat :=
  (List.range size).map (fun i => truncI (8 * size) disp / 256 ^ i % 256)

/-- Overwrite the slice `[start, start + repl.length)` of `l` with `repl`
(the effect of `buf.copy_from_slice` / `LittleEndian::write_iN` on a
subslice). -/
def setSlice (l : List Nat) (start : Nat) (repl : List Nat) : List Nat :=
  l.take start ++ repl ++ l.drop (start + repl.length)

/-- The assembler state from x64.rs (field for field; `DynamicLabel` ids are
the `Nat` index into `dynamic_labels`). -/
structure Assembler where
  execbuffer : ExecutableBuffer
  map_len : Nat
  asmoffset : Nat
  ops : List Nat
  global_labels : List (String × Nat)
  global_relocs : List (PatchLoc × String)
  dynamic_labels : List (Option Nat)
  dynamic_relocs : List (PatchLoc × Nat)
  local_labels : List (String × Nat)
  local_relocs : List (String × List PatchLoc)
  deriving Repr, DecidableEq

namespace Assembler

/-- `DynasmApi::offset` for `Assembler`: `self.ops.len() + self.asmoffset`. -/
def offset (a : Assembler) : Nat := a.ops.length + a.asmoffset

/-- `DynasmApi::push` for `Assembler`: `self.ops.push(value)`. -/
def push (a : Assembler) (value : Nat) : Assembler :=
  { a with ops := a.ops ++ [value] }

/-- `Extend<u8> for Assembler`: `self.ops.extend(iter)`. -/
def extend (a : Assembler) (bytes : List Nat) : Assembler :=
  { a with ops := a.ops ++ bytes }

/-- `Assembler::patch_loc`: translate `loc.0` into the staging buffer by
subtracting `asmoffset`, then overwrite the `size` bytes ending there with
the little-endian truncated displacement `target - loc.0`.  The guard
captures the `usize` underflows and the slice bounds check that panic in
Rust. -/
def patch_loc (a : Assembler) (loc : PatchLoc) (target : Nat) : Except AsmError Assembler :=
  if a.asmoffset ≤ loc.end_offset ∧ loc.size ≤ loc.end_offset - a.asmoffset ∧
      loc.end_offset - a.asmoffset ≤ a.ops.length then
    match write_i loc.size ((target : Int) - (loc.end_offset : Int)) with
    | .ok bs => .ok { a with ops := setSlice a.ops (loc.end_offset - a.asmoffset - loc.size) bs }
    | .error e => .error e
  else .error .Fault

end Assembler

/-- The loop over the swapped-out `global_relocs` in
`Assembler::encode_relocs`: look each name up in `global_labels` and patch,
panicking with `UnknownLabel` on a missing definition. -/
def encode_globals_list : Assembler → List (PatchLoc × String) → Except AsmError Assembler
  | a, [] => .ok a
  | a, (loc, name) :: rest =>
    match List.lookup name a.global_labels with
    | some target =>
      match a.patch_loc loc target with
      | .ok a2 => encode_globals_list a2 rest
      | .error e => .error e
    | none => .error .UnknownLabel

/-- The loop over the swapped-out `dynamic_relocs`: a patch happens only
when the slot is allocated and defined (`Some(&Some(target))`). -/
def encode_dynamics_list : Assembler → List (PatchLoc × Nat) → Except AsmError Assembler
  | a, [] => .ok a
  | a, (loc, id) :: rest =>
    match a.dynamic_labels.get? id with
    | some (some target) =>
      match a.patch_loc loc target with
      | .ok a2 => encode_dynamics_list a2 rest
      | .error e => .error e
    | _ => .error .UnknownLabel

/-- `Assembler::encode_relocs`: drain and resolve the global and dynamic
relocation tables (each is swapped out, emptied, then iterated), then fail
if any entry remains in `local_relocs`. -/
def Assembler.encode_relocs (a : Assembler) : Except AsmError Assembler :=
  match encode_globals_list { a with global_relocs := [] } a.global_relocs with
  | .error e => .error e
  | .ok a1 =>
    match encode_dynamics_list { a1 with dynamic_relocs := [] } a1.dynamic_relocs with
    | .error e => .error e
    | .ok a2 =>
      if a2.local_relocs.isEmpty then .ok a2 else .error .UnknownLabel

/-- `Assembler::commit`.  `buf_start = asmoffset`, `buf_end = offset()`.
If nothing is staged, return.  Otherwise resolve relocations, then either
grow into a fresh mapping of capacity `max(buf_end, 2·map_len)` (copying
the prefix `[0, buf_start)` from the old mapping and the staged bytes into
`[buf_start, buf_end)`) or copy the staged bytes in place, taking
`length := max(buf_end, length)`.  The inner guards are the
`copy_from_slice` length panics. -/
def Assembler.commit (a : Assembler) : Except AsmError Assembler :=
  let buf_start := a.asmoffset
  let buf_end := a.offset
  if buf_start = buf_end then .ok a
  else
    match a.encode_relocs with
    | .error e => .error e
    | .ok b =>
      if buf_end > b.map_len then
        let new_len := max buf_end (b.map_len * 2)
        if buf_start ≤ b.execbuffer.buffer.length then
          .ok { b with
            execbuffer :=
              ⟨b.execbuffer.buffer.take buf_start ++ b.ops ++
                 List.replicate (new_len - buf_end) 0, buf_end⟩,
            map_len := new_len, ops := [], asmoffset := buf_end }
        else .error .Fault
      else
        if buf_end ≤ b.execbuffer.buffer.length then
          .ok { b with
            execbuffer :=
              ⟨setSlice b.execbuffer.buffer buf_start b.ops,
                 max buf_end b.execbuffer.length⟩,
            ops := [], asmoffset := buf_end }
        else .error .Fault

/-- `Assembler::new_dynamic_label`: push an unallocated slot, return its
index. -/
def Assembler.new_dynamic_label (a : Assembler) : Assembler × Nat :=
  ({ a with dynamic_labels := a.dynamic_labels ++ [none] }, a.dynamic_labels.length)

/-- `DynasmLabelApi::global_label` for `Assembler`.  Note the source order:
`HashMap::insert` runs first and the duplicate panic fires on its returned
old value, so the table already holds the new offset when the panic is
raised.  The pair returns the state as left in memory together with the
panic, if any. -/
def Assembler.global_label (a : Assembler) (name : String) : Assembler × Option AsmError :=
  let off := a.offset
  let old := List.lookup name a.global_labels
  ({ a with global_labels := (name, off) :: a.global_labels.filter (fun p => !(p.1 == name)) },
   if old.isSome then some .DuplicateLabel else none)

/-- `DynasmLabelApi::global_reloc` for `Assembler`. -/
def Assembler.global_reloc (a : Assembler) (name : String) (size : Nat) : Assembler :=
  { a with global_relocs := a.global_relocs ++ [(⟨a.offset, size⟩, name)] }

/-- `DynasmLabelApi::dynamic_label` for `Assembler`: indexing an
unallocated slot panics (`Fault`); a bound slot panics with
`DuplicateLabel` before any write; otherwise the slot is set. -/
def Assembler.dynamic_label (a : Assembler) (id : Nat) : Assembler × Option AsmError :=
  let off := a.offset
  match a.dynamic_labels.get? id with
  | none => (a, some .Fault)
  | some (some _) => (a, some .DuplicateLabel)
  | some none => ({ a with dynamic_labels := a.dynamic_labels.set id (some off) }, none)

/-- `DynasmLabelApi::dynamic_reloc` for `Assembler`. -/
def Assembler.dynamic_reloc (a : Assembler) (id : Nat) (size : Nat) : Assembler :=
  { a with dynamic_relocs := a.dynamic_relocs ++ [(⟨a.offset, size⟩, id)] }

/-- The loop inside `local_label` patching every queued `PatchLoc` to the
current offset. -/
def patch_list : Assembler → List PatchLoc → Nat → Except AsmError Assembler
  | a, [], _ => .ok a
  | a, loc :: rest, target =>
    match a.patch_loc loc target with
    | .ok a2 => patch_list a2 rest target
    | .error e => .error e

/-- `DynasmLabelApi::local_label` for `Assembler`: drain
`local_relocs[name]` (patching each entry to the current offset), then
record the current offset as the definition of `name`, replacing any
previous one. -/
def Assembler.local_label (a : Assembler) (name : String) : Except AsmError Assembler :=
  let off := a.offset
  match List.lookup name a.local_relocs with
  | some relocs =>
    match patch_list { a with local_relocs := a.local_relocs.filter (fun p => !(p.1 == name)) }
        relocs off with
    | .ok a2 =>
      .ok { a2 with local_labels := (name, off) :: a2.local_labels.filter (fun p => !(p.1 == name)) }
    | .error e => .error e
  | none =>
    .ok { a with local_labels := (name, off) :: a.local_labels.filter (fun p => !(p.1 == name)) }

/-- `DynasmLabelApi::forward_reloc` for `Assembler`: append a `PatchLoc` at
the current offset to `local_relocs[name]`. -/
def Assembler.forward_reloc (a : Assembler) (name : String) (size : Nat) : Assembler :=
  match List.lookup name a.local_relocs with
  | some relocs =>
    { a with local_relocs :=
        (name, relocs ++ [⟨a.offset, size⟩]) :: a.local_relocs.filter (fun p => !(p.1 == name)) }
  | none =>
    { a with local_relocs := (name, [⟨a.offset, size⟩]) :: a.local_relocs }

/-- `DynasmLabelApi::backward_reloc` for `Assembler`: look up the most
recent definition and patch immediately; no relocation record is created. -/
def Assembler.backward_reloc (a : Assembler) (name : String) (size : Nat) : Except AsmError Assembler :=
  match List.lookup name a.local_labels with
  | some target => a.patch_loc ⟨a.offset, size⟩ target
  | none => .error .UnknownLabel

/-- `AssemblyModifier`: the view handed out by `Assembler::alter`, writing
directly into the writable mapping.  `buffer` models the
`MutableBuffer` contents the modifier borrows. -/
structure AssemblyModifier where
  assembler : Assembler
  buffer : List Nat
  deriving Repr, DecidableEq

namespace AssemblyModifier

/-- `DynasmApi::offset` for `AssemblyModifier`: delegates to
`self.assembler.offset()`. -/
def offset (m : AssemblyModifier) : Nat := m.assembler.offset

/-- `DynasmApi::push` for `AssemblyModifier`:
`self.buffer[self.assembler.asmoffset] = value; self.assembler.asmoffset += 1`
(indexing past the mapping panics). -/
def push (m : AssemblyModifier) (value : Nat) : Except AsmError AssemblyModifier :=
  if m.assembler.asmoffset < m.buffer.length then
    .ok { m with
      buffer := m.buffer.set m.assembler.asmoffset value,
      assembler := { m.assembler with asmoffset := m.assembler.asmoffset + 1 } }
  else .error .Fault

/-- `AssemblyModifier::goto`: set the modification offset; no byte is
written. -/
def goto (m : AssemblyModifier) (off : Nat) : AssemblyModifier :=
  { m with assembler := { m.assembler with asmoffset := off } }

/-- `AssemblyModifier::patch_loc`: like the assembler's, but the span
`[loc.0 - loc.1, loc.0)` indexes the mapping directly (no `asmoffset`
translation). -/
def patch_loc (m : AssemblyModifier) (loc : PatchLoc) (target : Nat) :
    Except AsmError AssemblyModifier :=
  if loc.size ≤ loc.end_offset ∧ loc.end_offset ≤ m.buffer.length then
    match write_i loc.size ((target : Int) - (loc.end_offset : Int)) with
    | .ok bs => .ok { m with buffer := setSlice m.buffer (loc.end_offset - loc.size) bs }
    | .error e => .error e
  else .error .Fault

end AssemblyModifier

/-- `UncommittedModifier`: the view handed out by
`Assembler::alter_uncommitted`, a cursor over the staging buffer; `offset`
is initialised to the assembler's `asmoffset`. -/
structure UncommittedModifier where
  assembler : Assembler
  offset : Nat
  deriving Repr, DecidableEq

namespace UncommittedModifier

/-- `DynasmApi::push` for `UncommittedModifier`:
`self.assembler.ops[self.offset - self.assembler.asmoffset] = value;
self.offset += 1`.  The `usize` subtraction underflow and the `Vec` index
bound are the two panics the guard captures; no path appends to `ops`. -/
def push (u : UncommittedModifier) (value : Nat) : Except AsmError UncommittedModifier :=
  if u.assembler.asmoffset ≤ u.offset ∧
      u.offset - u.assembler.asmoffset < u.assembler.ops.length then
    .ok { u with
      assembler := { u.assembler with
        ops := u.assembler.ops.set (u.offset - u.assembler.asmoffset) value },
      offset := u.offset + 1 }
  else .error .Fault

/-- `UncommittedModifier::goto`. -/
def goto (u : UncommittedModifier) (off : Nat) : UncommittedModifier :=
  { u with offset := off }

end UncommittedModifier

/-- A `PatchLoc` that `Assembler::patch_loc` can process without panicking:
its span lies inside the staging window and its width is one of the four
the dispatch accepts. -/
def LocOK (asmoff opslen : Nat) (loc : PatchLoc) : Prop :=
  asmoff ≤ loc.end_offset ∧ loc.size ≤ loc.end_offset - asmoff ∧
    loc.end_offset - asmoff ≤ opslen ∧
    (loc.size = 1 ∨ loc.size = 2 ∨ loc.size = 4 ∨ loc.size = 8)

instance (asmoff opslen : Nat) (loc : PatchLoc) : Decidable (LocOK asmoff opslen loc) := by
  unfold LocOK
  infer_instance

/-- Spec-side statement of one patch: overwrite the field of `loc`
(translated into staging-buffer coordinates by `asmoff`) with the encoded
displacement `target - loc.end_offset`. -/
def opsPatchSpec (asmoff : Nat) (ops : List Nat) (loc : PatchLoc) (target : Nat) : List Nat :=
  setSlice ops (loc.end_offset - asmoff - loc.size)
    (encodeLE loc.size ((target : Int) - (loc.end_offset : Int)))

/-- A small freshly created assembler state (4-byte mapping, nothing
staged), used to evaluate the theorems on concrete inputs. -/
def exAsm0 : Assembler :=
  { execbuffer := ⟨[0, 0, 0, 0], 0⟩, map_len := 4, asmoffset := 0, ops := [],
    global_labels := [], global_relocs := [], dynamic_labels := [], dynamic_relocs := [],
    local_labels := [], local_relocs := [] }

/-- `exAsm0` with two staged bytes. -/
def exC : Assembler := { exAsm0 with ops := [1, 2] }

/-- The state `exC.commit` reaches: bytes copied in place, staging buffer
drained, `asmoffset` advanced. -/
def exC' : Assembler := { exAsm0 with execbuffer := ⟨[1, 2, 0, 0], 2⟩, asmoffset := 2 }

/-- A state with one committed byte and one staged byte, for the
frame-effect checks. -/
def exP : Assembler :=
  { exAsm0 with execbuffer := ⟨[9, 0, 0, 0], 1⟩, asmoffset := 1, ops := [7] }

/-- A state whose staged bytes overflow the 4-byte mapping, driving commit
into the growth branch. -/
def exG : Assembler := { exAsm0 with ops := [1, 2, 3, 4, 5] }

/-- A call instruction staged at offsets 2..7 with a 4-byte field ending at
offset 7, for the patching theorem. -/
def exPatch : Assembler := { exAsm0 with asmoffset := 2, ops := [232, 0, 0, 0, 0] }

/-- A jump with a queued forward local reference (field of width 1 ending
at staged offset 2) and filler bytes. -/
def exL : Assembler :=
  { exAsm0 with ops := [235, 0, 1, 2, 3], local_relocs := [("L", [⟨2, 1⟩])] }

/-- A pending global relocation next to its definition, resolvable at
commit. -/
def exR : Assembler :=
  { exAsm0 with
    ops := [232, 0, 0, 0, 0],
    global_labels := [("f", 5)], global_relocs := [(⟨5, 4⟩, "f")] }

/-- A state that already defines global label `f` at offset 0 and dynamic
label 0 at offset 0, with one staged byte so the current offset is 1. -/
def exDup : Assembler :=
  { exAsm0 with ops := [144], global_labels := [("f", 0)], dynamic_labels := [some 0] }

/-- The state `exG.commit` reaches: an 8-byte mapping holding the five
staged bytes. -/
def exG' : Assembler :=
  { exAsm0 with
    execbuffer := ⟨[1, 2, 3, 4, 5, 0, 0, 0], 5⟩, map_len := 8, asmoffset := 5 }

/-- The state `exP.commit` reaches: the staged byte copied in place after
the committed one. -/
def exP' : Assembler := { exAsm0 with execbuffer := ⟨[9, 7, 0, 0], 2⟩, asmoffset := 2 }

/-- A modifier over a writable 4-byte mapping with an empty staging
buffer, as `alter` produces. -/
def exM : AssemblyModifier := ⟨exAsm0, [0, 0, 0, 0]⟩

/-- An uncommitted-modifier cursor at the start of `exC`'s staging
window. -/
def exU : UncommittedModifier := ⟨exC, 0⟩

theorem bytesLE_length : ∀ (w v : Nat), (bytesLE w v).length = w
  | 0, _ => rfl
  | w + 1, v => by simp [bytesLE, bytesLE_length w]

theorem bytesLE_eq_map :
    ∀ (w v : Nat), bytesLE w v = (List.range w).map (fun i => v / 256 ^ i % 256)
  | 0, _ => rfl
  | w + 1, v => by
    rw [bytesLE, bytesLE_eq_map w (v / 256), List.range_succ_eq_map, List.map_cons,
      List.map_map]
    refine congrArg₂ List.cons (by norm_num) (List.map_congr_left ?_)
    intro i _
    simp only [Function.comp_apply]
    rw [Nat.div_div_eq_div_mul, Nat.pow_succ, Nat.mul_comm]

theorem encodeLE_length (s : Nat) (d : Int) : (encodeLE s d).length = s := by
  simp [encodeLE]

theorem write_i_ok_encodeLE {s : Nat} {d : Int} {bs : List Nat}
    (h : write_i s d = .ok bs) : bs = encodeLE s d := by
  unfold write_i at h
  split_ifs at h with h1 h2 h4 h8 <;>
    simp only [Except.ok.injEq] at h <;> subst h <;>
    first
    | (subst h1; rw [bytesLE_eq_map]; rfl)
    | (subst h2; rw [bytesLE_eq_map]; rfl)
    | (subst h4; rw [bytesLE_eq_map]; rfl)
    | (subst h8; rw [bytesLE_eq_map]; rfl)

theorem write_i_ok_length {s : Nat} {d : Int} {bs : List Nat}
    (h : write_i s d = .ok bs) : bs.length = s := by
  rw [write_i_ok_encodeLE h, encodeLE_length]

theorem write_i_isOk {s : Nat} (d : Int)
    (hs : s = 1 ∨ s = 2 ∨ s = 4 ∨ s = 8) :
    write_i s d = .ok (encodeLE s d) := by
  rcases hs with h | h | h | h <;> subst h <;>
    simp [write_i, bytesLE_eq_map, encodeLE]

theorem setSlice_length {l : List Nat} {start : Nat} {repl : List Nat}
    (h : start + repl.length ≤ l.length) :
    (setSlice l start repl).length = l.length := by
  simp only [setSlice, List.length_append, List.length_take, List.length_drop]
  omega

theorem setSlice_getElem_lt {l : List Nat} {start : Nat} {repl : List Nat} {j : Nat}
    (hj : j < start) (h : start ≤ l.length) :
    (setSlice l start repl)[j]? = l[j]? := by
  unfold setSlice
  have htk : (l.take start).length = start := by rw [List.length_take]; omega
  have h1 : j < (l.take start ++ repl).length := by
    rw [List.length_append, htk]; omega
  have h2 : j < (l.take start).length := by rw [htk]; exact hj
  rw [List.getElem?_append, if_pos h1, List.getElem?_append, if_pos h2,
    List.getElem?_take_of_lt hj]

theorem setSlice_getElem_ge {l : List Nat} {start : Nat} {repl : List Nat} {j : Nat}
    (hj : start + repl.length ≤ j) (h : start + repl.length ≤ l.length) :
    (setSlice l start repl)[j]? = l[j]? := by
  unfold setSlice
  have htk : (l.take start).length = start := by rw [List.length_take]; omega
  have h1 : ¬ j < (l.take start ++ repl).length := by
    rw [List.length_append, htk]; omega
  rw [List.getElem?_append, if_neg h1, List.getElem?_drop]
  congr 1
  rw [List.length_append, htk]
  omega

theorem setSlice_window {l : List Nat} {start : Nat} {repl : List Nat}
    (h : start ≤ l.length) :
    ((setSlice l start repl).drop start).take repl.length = repl := by
  unfold setSlice
  have htk : (l.take start).length = start := by rw [List.length_take]; omega
  rw [List.append_assoc, List.drop_left' htk, List.take_left]

theorem opsPatchSpec_length {asmoff : Nat} {ops : List Nat} {loc : PatchLoc} {t : Nat}
    (h2 : loc.size ≤ loc.end_offset - asmoff)
    (h3 : loc.end_offset - asmoff ≤ ops.length) :
    (opsPatchSpec asmoff ops loc t).length = ops.length := by
  unfold opsPatchSpec
  rw [setSlice_length]
  rw [encodeLE_length]
  omega

theorem patch_loc_ok (a : Assembler) (loc : PatchLoc) (t : Nat)
    (h : LocOK a.asmoffset a.ops.length loc) :
    a.patch_loc loc t = .ok { a with ops := opsPatchSpec a.asmoffset a.ops loc t } := by
  obtain ⟨h1, h2, h3, hs⟩ := h
  unfold Assembler.patch_loc
  rw [if_pos ⟨h1, h2, h3⟩, write_i_isOk _ hs]
  rfl

theorem patch_loc_ok_shape {a a' : Assembler} {loc : PatchLoc} {t : Nat}
    (h : a.patch_loc loc t = .ok a') :
    a' = { a with ops := a'.ops } ∧ a'.ops.length = a.ops.length := by
  unfold Assembler.patch_loc at h
  split_ifs at h with hg
  · cases hw : write_i loc.size ((t : Int) - (loc.end_offset : Int)) with
    | ok bs =>
      rw [hw] at h
      simp only [Except.ok.injEq] at h
      subst h
      refine ⟨rfl, ?_⟩
      simp only
      rw [setSlice_length]
      rw [write_i_ok_length hw]
      omega
    | error e =>
      rw [hw] at h
      exact absurd h (by simp)

/-- The claim C1 property, staged-buffer side: what `patch_loc` writes and
what it leaves alone. -/
theorem patch_displacement_correct (a : Assembler) (loc : PatchLoc) (t : Nat)
    (hsz : loc.size = 1 ∨ loc.size = 2 ∨ loc.size = 4 ∨ loc.size = 8)
    (h1 : a.asmoffset ≤ loc.end_offset)
    (h2 : loc.size ≤ loc.end_offset - a.asmoffset)
    (h3 : loc.end_offset - a.asmoffset ≤ a.ops.length) :
    (∃ a', a.patch_loc loc t = .ok a' ∧
      a'.ops.length = a.ops.length ∧
      (a'.ops.drop (loc.end_offset - a.asmoffset - loc.size)).take loc.size
        = encodeLE loc.size ((t : Int) - (loc.end_offset : Int)) ∧
      (∀ j, j < loc.end_offset - a.asmoffset - loc.size → a'.ops[j]? = a.ops[j]?) ∧
      (∀ j, loc.end_offset - a.asmoffset ≤ j → a'.ops[j]? = a.ops[j]?) ∧
      a' = { a with ops := a'.ops }) ∧
    (∀ m : AssemblyModifier, loc.size ≤ loc.end_offset → loc.end_offset ≤ m.buffer.length →
      ∃ m', m.patch_loc loc t = .ok m' ∧
        m'.buffer.length = m.buffer.length ∧
        (m'.buffer.drop (loc.end_offset - loc.size)).take loc.size
          = encodeLE loc.size ((t : Int) - (loc.end_offset : Int)) ∧
        (∀ j, j < loc.end_offset - loc.size → m'.buffer[j]? = m.buffer[j]?) ∧
        (∀ j, loc.end_offset ≤ j → m'.buffer[j]? = m.buffer[j]?) ∧
        m'.assembler = m.assembler) := by
  constructor
  · refine ⟨_, patch_loc_ok a loc t ⟨h1, h2, h3, hsz⟩, ?_, ?_, ?_, ?_, rfl⟩
    · exact opsPatchSpec_length h2 h3
    · unfold opsPatchSpec
      have := @setSlice_window a.ops (loc.end_offset - a.asmoffset - loc.size)
        (encodeLE loc.size ((t : Int) - (loc.end_offset : Int))) (by omega)
      rw [encodeLE_length] at this
      exact this
    · intro j hj
      exact setSlice_getElem_lt hj (by omega)
    · intro j hj
      apply setSlice_getElem_ge
      · rw [encodeLE_length]; omega
      · rw [encodeLE_length]; omega
  · intro m hms hmb
    have hok : m.patch_loc loc t = .ok
        { m with buffer := (setSlice m.buffer (loc.end_offset - loc.size) (encodeLE loc.size ((t : Int) - (loc.end_offset : Int)))) } := by
      unfold AssemblyModifier.patch_loc
      rw [if_pos ⟨hms, hmb⟩, write_i_isOk _ hsz]
    refine ⟨_, hok, ?_, ?_, ?_, ?_, rfl⟩
    · rw [setSlice_length]
      rw [encodeLE_length]
      omega
    · have := @setSlice_window m.buffer (loc.end_offset - loc.size)
        (encodeLE loc.size ((t : Int) - (loc.end_offset : Int))) (by omega)
      rw [encodeLE_length] at this
      exact this
    · intro j hj
      exact setSlice_getElem_lt hj (by omega)
    · intro j hj
      apply setSlice_getElem_ge
      · rw [encodeLE_length]; omega
      · rw [encodeLE_length]; omega

/-- C1: for a PatchLoc `(end_offset, size)` with `size ∈ {1,2,4,8}` and a
resolved target `t`, patching writes the little-endian two's-complement
truncation of `t - end_offset` into the span `[end_offset - size,
end_offset)` — translated by `asmoffset` when the write lands in the
staging buffer, untranslated in the executable mapping — and changes no
other byte and no other state. -/
theorem C1_patch_loc_displacement (a : Assembler) (loc : PatchLoc) (t : Nat)
    (hsz : loc.size = 1 ∨ loc.size = 2 ∨ loc.size = 4 ∨ loc.size = 8)
    (h1 : a.asmoffset ≤ loc.end_offset)
    (h2 : loc.size ≤ loc.end_offset - a.asmoffset)
    (h3 : loc.end_offset - a.asmoffset ≤ a.ops.length) :
    (∃ a', a.patch_loc loc t = .ok a' ∧
      a'.ops.length = a.ops.length ∧
      (a'.ops.drop (loc.end_offset - a.asmoffset - loc.size)).take loc.size
        = encodeLE loc.size ((t : Int) - (loc.end_offset : Int)) ∧
      (∀ j, j < loc.end_offset - a.asmoffset - loc.size → a'.ops[j]? = a.ops[j]?) ∧
      (∀ j, loc.end_offset - a.asmoffset ≤ j → a'.ops[j]? = a.ops[j]?) ∧
      a' = { a with ops := a'.ops }) ∧
    (∀ m : AssemblyModifier, loc.size ≤ loc.end_offset → loc.end_offset ≤ m.buffer.length →
      ∃ m', m.patch_loc loc t = .ok m' ∧
        m'.buffer.length = m.buffer.length ∧
        (m'.buffer.drop (loc.end_offset - loc.size)).take loc.size
          = encodeLE loc.size ((t : Int) - (loc.end_offset : Int)) ∧
        (∀ j, j < loc.end_offset - loc.size → m'.buffer[j]? = m.buffer[j]?) ∧
        (∀ j, loc.end_offset ≤ j → m'.buffer[j]? = m.buffer[j]?) ∧
        m'.assembler = m.assembler) :=
  patch_displacement_correct a loc t hsz h1 h2 h3

/-- C1 witness: patching the 4-byte field of the staged call in `exPatch`
to target 7 succeeds and the field holds the encoding of displacement 0. -/
theorem C1_patch_loc_displacement_witness :
    ∃ a', exPatch.patch_loc ⟨7, 4⟩ 7 = .ok a' ∧
      (a'.ops.drop 1).take 4 = encodeLE 4 0 := by
  obtain ⟨⟨a', hok, _, hwin, _⟩, _⟩ :=
    C1_patch_loc_displacement exPatch ⟨7, 4⟩ 7 (by decide) (by decide) (by decide) (by decide)
  exact ⟨a', hok, hwin⟩

/-- C2: `offset()` returns `|ops| + asmoffset`, `push` raises it by exactly
one, `extend` by exactly the number of bytes appended, strictly when the
sequence is nonempty. -/
theorem C2_offset_semantics (a : Assembler) (v : Nat) (bs : List Nat) :
    a.offset = a.ops.length + a.asmoffset ∧
    (a.push v).offset = a.offset + 1 ∧
    (a.extend bs).offset = a.offset + bs.length ∧
    (bs ≠ [] → a.offset < (a.extend bs).offset) := by
  refine ⟨rfl, ?_, ?_, ?_⟩
  · simp [Assembler.offset, Assembler.push]
    omega
  · simp [Assembler.offset, Assembler.extend]
    omega
  · intro hne
    have : 0 < bs.length := List.length_pos.mpr hne
    simp [Assembler.offset, Assembler.extend]
    omega

/-- C2 witness: a two-byte extend strictly increases the offset of
`exAsm0`. -/
theorem C2_offset_semantics_witness : exAsm0.offset < (exAsm0.extend [1, 2]).offset :=
  (C2_offset_semantics exAsm0 7 [1, 2]).2.2.2 (by decide)

/-- Any successful commit leaves the staging buffer empty. -/
theorem commit_ok_ops_nil {a a' : Assembler} (h : a.commit = .ok a') : a'.ops = [] := by
  unfold Assembler.commit at h
  simp only [Assembler.offset] at h
  split at h
  · next heq =>
    simp only [Except.ok.injEq] at h
    subst h
    have : a.ops.length = 0 := by omega
    exact List.length_eq_zero.mp this
  · split at h
    · exact absurd h (by simp)
    · split at h
      · split at h
        · simp only [Except.ok.injEq] at h
          subst h
          rfl
        · exact absurd h (by simp)
      · split at h
        · simp only [Except.ok.injEq] at h
          subst h
          rfl
        · exact absurd h (by simp)

/-- C3: commit is idempotent — a second `commit` after a successful one is
a no-op returning the same state, and in particular `commit` on a state
with an empty staging buffer returns the state unchanged. -/
theorem C3_commit_idempotent (a a' : Assembler) (h : a.commit = .ok a') :
    a'.commit = .ok a' ∧ (∀ b : Assembler, b.ops = [] → b.commit = .ok b) := by
  have hnil : ∀ b : Assembler, b.ops = [] → b.commit = .ok b := by
    intro b hb
    unfold Assembler.commit
    simp [Assembler.offset, hb]
  exact ⟨hnil a' (commit_ok_ops_nil h), hnil⟩

/-- C3 witness: committing `exC` yields `exC'`, and committing again is the
identity. -/
theorem C3_commit_idempotent_witness : exC'.commit = .ok exC' :=
  (C3_commit_idempotent exC exC' (by rfl)).1

/-- C9: during `alter` (staging buffer empty) the committed modifier's
`offset()` reports `asmoffset`; `push` writes the byte at
`mapping[asmoffset]` and advances `asmoffset` by one; `goto` moves the
cursor without touching any byte. -/
theorem C9_committed_modifier_cursor (m : AssemblyModifier) (v off : Nat)
    (hops : m.assembler.ops = []) (hb : m.assembler.asmoffset < m.buffer.length) :
    m.offset = m.assembler.asmoffset ∧
    (∃ m', m.push v = .ok m' ∧
      m'.buffer = m.buffer.set m.assembler.asmoffset v ∧
      m'.assembler = { m.assembler with asmoffset := m.assembler.asmoffset + 1 }) ∧
    ((m.goto off).assembler.asmoffset = off ∧ (m.goto off).buffer = m.buffer) := by
  refine ⟨?_, ?_, rfl, rfl⟩
  · simp [AssemblyModifier.offset, Assembler.offset, hops]
  · refine ⟨{ m with
      buffer := m.buffer.set m.assembler.asmoffset v,
      assembler := { m.assembler with asmoffset := m.assembler.asmoffset + 1 } }, ?_, rfl, rfl⟩
    unfold AssemblyModifier.push
    rw [if_pos hb]

/-- C9 witness: on the concrete modifier `exM`, push writes byte 9 at
offset 0. -/
theorem C9_committed_modifier_cursor_witness :
    ∃ m', exM.push 9 = .ok m' ∧ m'.buffer = [9, 0, 0, 0] := by
  obtain ⟨_, ⟨m', hok, hbuf, _⟩, _⟩ :=
    C9_committed_modifier_cursor exM 9 3 (by decide) (by decide)
  exact ⟨m', hok, by rw [hbuf]; rfl⟩

/-- C10: `UncommittedModifier::push` succeeds exactly when the cursor lies
inside the staging window `[asmoffset, asmoffset + |ops|)`; on success it
overwrites the staged byte at `offset - asmoffset`, advances the cursor,
and never changes the length of `ops`. -/
theorem C10_uncommitted_push_bounds (u : UncommittedModifier) (v : Nat) :
    ((∃ u', u.push v = .ok u') ↔
      (u.assembler.asmoffset ≤ u.offset ∧
        u.offset < u.assembler.asmoffset + u.assembler.ops.length)) ∧
    (∀ u', u.push v = .ok u' →
      u'.assembler.ops = u.assembler.ops.set (u.offset - u.assembler.asmoffset) v ∧
      u'.assembler.ops.length = u.assembler.ops.length ∧
      u'.offset = u.offset + 1 ∧
      u'.assembler = { u.assembler with
        ops := u.assembler.ops.set (u.offset - u.assembler.asmoffset) v }) := by
  constructor
  · constructor
    · rintro ⟨u', hu⟩
      unfold UncommittedModifier.push at hu
      split_ifs at hu with hg
      omega
    · intro hcond
      refine ⟨{ u with
        assembler := { u.assembler with
          ops := u.assembler.ops.set (u.offset - u.assembler.asmoffset) v },
        offset := u.offset + 1 }, ?_⟩
      unfold UncommittedModifier.push
      rw [if_pos ⟨hcond.1, by omega⟩]
  · intro u' hu
    unfold UncommittedModifier.push at hu
    split_ifs at hu with hg
    simp only [Except.ok.injEq] at hu
    subst hu
    exact ⟨rfl, by simp, rfl, rfl⟩

/-- C10 witness: the cursor of `exU` sits at the start of a two-byte
staging window, so a push succeeds. -/
theorem C10_uncommitted_push_bounds_witness : ∃ u', exU.push 9 = .ok u' :=
  (C10_uncommitted_push_bounds exU 9).1.mpr (by decide)

theorem encode_globals_shape : ∀ (l : List (PatchLoc × String)) (a b : Assembler),
    encode_globals_list a l = .ok b →
    b = { a with ops := b.ops } ∧ b.ops.length = a.ops.length
  | [], a, b, h => by
    simp only [encode_globals_list, Except.ok.injEq] at h
    subst h
    exact ⟨rfl, rfl⟩
  | (loc, name) :: rest, a, b, h => by
    simp only [encode_globals_list] at h
    cases hlk : List.lookup name a.global_labels with
    | none =>
      simp only [hlk] at h
      exact absurd h (by simp)
    | some target =>
      simp only [hlk] at h
      cases hp : a.patch_loc loc target with
      | error e =>
        simp only [hp] at h
        exact absurd h (by simp)
      | ok a2 =>
        simp only [hp] at h
        obtain ⟨hsh, hlen⟩ := encode_globals_shape rest a2 b h
        obtain ⟨hsh2, hlen2⟩ := patch_loc_ok_shape hp
        have h3 : ({ a2 with ops := b.ops } : Assembler) = { a with ops := b.ops } := by
          rw [hsh2]
        exact ⟨hsh.trans h3, by rw [hlen, hlen2]⟩

theorem encode_dynamics_shape : ∀ (l : List (PatchLoc × Nat)) (a b : Assembler),
    encode_dynamics_list a l = .ok b →
    b = { a with ops := b.ops } ∧ b.ops.length = a.ops.length
  | [], a, b, h => by
    simp only [encode_dynamics_list, Except.ok.injEq] at h
    subst h
    exact ⟨rfl, rfl⟩
  | (loc, id) :: rest, a, b, h => by
    simp only [encode_dynamics_list] at h
    cases hlk : a.dynamic_labels.get? id with
    | none =>
      simp only [hlk] at h
      exact absurd h (by simp)
    | some slot =>
      cases slot with
      | none =>
        simp only [hlk] at h
        exact absurd h (by simp)
      | some target =>
        simp only [hlk] at h
        cases hp : a.patch_loc loc target with
        | error e =>
          simp only [hp] at h
          exact absurd h (by simp)
        | ok a2 =>
          simp only [hp] at h
          obtain ⟨hsh, hlen⟩ := encode_dynamics_shape rest a2 b h
          obtain ⟨hsh2, hlen2⟩ := patch_loc_ok_shape hp
          have h3 : ({ a2 with ops := b.ops } : Assembler) = { a with ops := b.ops } := by
            rw [hsh2]
          exact ⟨hsh.trans h3, by rw [hlen, hlen2]⟩

/-- Successful relocation resolution only rewrites staged bytes, empties
the global and dynamic relocation tables, and preserves everything else. -/
theorem encode_relocs_shape {a b : Assembler} (h : a.encode_relocs = .ok b) :
    b = { a with ops := b.ops, global_relocs := [], dynamic_relocs := [] } ∧
    b.ops.length = a.ops.length := by
  unfold Assembler.encode_relocs at h
  cases h1 : encode_globals_list { a with global_relocs := [] } a.global_relocs with
  | error e =>
    simp only [h1] at h
    exact absurd h (by simp)
  | ok a1 =>
    simp only [h1] at h
    cases h2 : encode_dynamics_list { a1 with dynamic_relocs := [] } a1.dynamic_relocs with
    | error e =>
      simp only [h2] at h
      exact absurd h (by simp)
    | ok a2 =>
      simp only [h2] at h
      split_ifs at h
      simp only [Except.ok.injEq] at h
      subst h
      obtain ⟨hs1, hl1⟩ := encode_globals_shape _ _ _ h1
      obtain ⟨hs2, hl2⟩ := encode_dynamics_shape _ _ _ h2
      constructor
      · rw [hs2]
        have : ({ a1 with dynamic_relocs := [] } : Assembler)
            = { a with ops := a1.ops, global_relocs := [], dynamic_relocs := [] } := by
          rw [hs1]
        rw [this]
      · rw [hl2, hs1] at *
        exact hl1


/-- C7: no byte of the published image below the staging window
`buf_start = asmoffset` is changed by a commit (either branch), and during
an alter a modifier push only changes the byte at the cursor, so
previously committed code survives commits and pushes that do not rewrite
its offsets. -/
theorem C7_commit_frame (a a' : Assembler) (h : a.commit = .ok a') :
    (∀ k, k < a.asmoffset → a'.execbuffer.buffer[k]? = a.execbuffer.buffer[k]?) ∧
    (∀ (m m' : AssemblyModifier) (v : Nat), m.push v = .ok m' →
      ∀ j, j ≠ m.assembler.asmoffset → m'.buffer[j]? = m.buffer[j]?) := by
  constructor
  · intro k hk
    unfold Assembler.commit at h
    simp only [Assembler.offset] at h
    split at h
    · simp only [Except.ok.injEq] at h
      subst h
      rfl
    · split at h
      · exact absurd h (by simp)
      · next b heq =>
        obtain ⟨hsb, hlb⟩ := encode_relocs_shape heq
        have hbuf : b.execbuffer = a.execbuffer := by rw [hsb]
        split at h
        all_goals split at h
        · rename_i hg2
          simp only [Except.ok.injEq] at h
          subst h
          simp only
          rw [hbuf] at hg2 ⊢
          have htk : (a.execbuffer.buffer.take a.asmoffset).length = a.asmoffset := by
            rw [List.length_take]
            omega
          have h1 : k < (a.execbuffer.buffer.take a.asmoffset ++ b.ops).length := by
            rw [List.length_append, htk]
            omega
          have h2 : k < (a.execbuffer.buffer.take a.asmoffset).length := by
            rw [htk]
            exact hk
          rw [List.getElem?_append, if_pos h1, List.getElem?_append, if_pos h2,
            List.getElem?_take_of_lt hk]
        · exact absurd h (by simp)
        · rename_i hg2
          simp only [Except.ok.injEq] at h
          subst h
          simp only
          rw [hbuf] at hg2 ⊢
          exact setSlice_getElem_lt hk (by omega)
        · exact absurd h (by simp)
  · intro m m' v hp j hj
    unfold AssemblyModifier.push at hp
    split_ifs at hp with hb
    simp only [Except.ok.injEq] at hp
    subst hp
    simp only
    exact List.getElem?_set_ne (by omega)

/-- C7 witness: the committed byte 9 at offset 0 of `exP` survives the
commit that appends a staged byte behind it. -/
theorem C7_commit_frame_witness : exP'.execbuffer.buffer[0]? = exP.execbuffer.buffer[0]? :=
  (C7_commit_frame exP exP' (by rfl)).1 0 (by decide)

/-- C6: when the staged bytes overflow the mapping, commit allocates a new
mapping of capacity `max(buf_end, 2 * map_len)`, copies the old prefix
`[0, buf_start)` and the (relocated) staged bytes into
`[buf_start, buf_end)`, and sets the live length to `buf_end`. -/
theorem C6_commit_growth (a a' : Assembler)
    (hne : a.ops ≠ [])
    (hgrow : a.map_len < a.ops.length + a.asmoffset)
    (h : a.commit = .ok a') :
    a'.map_len = max (a.ops.length + a.asmoffset) (a.map_len * 2) ∧
    a'.execbuffer.length = a.ops.length + a.asmoffset ∧
    a'.execbuffer.buffer.length = a'.map_len ∧
    a'.asmoffset = a.ops.length + a.asmoffset ∧
    a'.ops = [] ∧
    a'.execbuffer.buffer.take a.asmoffset = a.execbuffer.buffer.take a.asmoffset ∧
    (∃ b, a.encode_relocs = .ok b ∧ b.ops.length = a.ops.length ∧
      (a'.execbuffer.buffer.drop a.asmoffset).take a.ops.length = b.ops) := by
  unfold Assembler.commit at h
  simp only [Assembler.offset] at h
  split at h
  · rename_i h0
    exfalso
    have hz : a.ops.length = 0 := by omega
    exact hne (List.length_eq_zero.mp hz)
  · split at h
    · exact absurd h (by simp)
    · next b heq =>
      obtain ⟨hsb, hlb⟩ := encode_relocs_shape heq
      have hbuf : b.execbuffer = a.execbuffer := by rw [hsb]
      have hml : b.map_len = a.map_len := by rw [hsb]
      split at h
      · split at h
        · rename_i hg1 hg2
          simp only [Except.ok.injEq] at h
          subst h
          simp only
          rw [hbuf] at hg2
          have htk : (a.execbuffer.buffer.take a.asmoffset).length = a.asmoffset := by
            rw [List.length_take]
            omega
          refine ⟨?_, trivial, ?_, trivial, trivial, ?_, b, heq, hlb, ?_⟩
          · rw [hml]
          · rw [hbuf]
            simp only [List.length_append, List.length_take, List.length_replicate]
            omega
          · rw [hbuf, List.append_assoc, List.take_left' htk]
          · rw [hbuf, List.append_assoc, List.drop_left' htk, List.take_left' hlb]
        · exact absurd h (by simp)
      · rename_i hg1
        exfalso
        rw [hml] at hg1
        omega

/-- C6 witness: committing `exG` (five staged bytes against a 4-byte
mapping) doubles the capacity to 8 and publishes the five bytes. -/
theorem C6_commit_growth_witness :
    exG'.map_len = max (exG.ops.length + exG.asmoffset) (exG.map_len * 2) ∧
    exG'.execbuffer.length = exG.ops.length + exG.asmoffset := by
  have h := C6_commit_growth exG exG' (by decide) (by decide) (by rfl)
  exact ⟨h.1, h.2.1⟩

/-- C8 counterexample: in `exDup` the global label `f` is already defined
at offset 0 and the current offset is 1.  Redefining `f` does fail with
`DuplicateLabel`, but — because the source inserts into the map before
checking the returned old value — the table afterwards holds the new
offset 1, not the previously recorded 0.  This refutes the claim that the
previous definition is not replaced on failure. -/
theorem C8_duplicate_label_counterexample :
    (exDup.global_label ("f")).2 = some .DuplicateLabel ∧
    List.lookup ("f") (exDup.global_label ("f")).1.global_labels = some 1 ∧
    ¬ List.lookup ("f") (exDup.global_label ("f")).1.global_labels = some 0 := by
  refine ⟨rfl, rfl, by decide⟩

/-- C8 amended: `global_label` and `dynamic_label` fail with
`DuplicateLabel` exactly when the name or id already has a definition; on
a duplicate, `dynamic_label` leaves the assembler completely unchanged
(it checks the slot before writing), but `global_label` has already
replaced the recorded definition with the new offset when the failure is
raised. -/
theorem C8_duplicate_label_amended (a : Assembler) (n : String) (id : Nat) :
    ((a.global_label n).2 = some .DuplicateLabel ↔
      (List.lookup n a.global_labels).isSome) ∧
    List.lookup n (a.global_label n).1.global_labels = some a.offset ∧
    ((a.dynamic_label id).2 = some .DuplicateLabel ↔
      ∃ t, a.dynamic_labels.get? id = some (some t)) ∧
    ((a.dynamic_label id).2 = some .DuplicateLabel → (a.dynamic_label id).1 = a) := by
  refine ⟨?_, ?_, ?_, ?_⟩
  · unfold Assembler.global_label
    cases hlk : List.lookup n a.global_labels <;> simp [hlk]
  · unfold Assembler.global_label
    simp [List.lookup]
  · unfold Assembler.dynamic_label
    cases hd : a.dynamic_labels.get? id with
    | none => simp [hd]
    | some slot =>
      cases slot with
      | none => simp [hd]
      | some t => simp [hd]
  · unfold Assembler.dynamic_label
    cases hd : a.dynamic_labels.get? id with
    | none => simp [hd]
    | some slot =>
      cases slot with
      | none => simp [hd]
      | some t => simp [hd]

/-- C8 amended witness: redefining dynamic label 0 of `exDup` fails and
leaves the state untouched. -/
theorem C8_duplicate_label_amended_witness : (exDup.dynamic_label 0).1 = exDup :=
  (C8_duplicate_label_amended exDup ("f") 0).2.2.2 (by rfl)

/-- Removing every entry of a key from an association list makes its
lookup fail (the model of `HashMap::remove`). -/
theorem lookup_filter_self {α : Type} (n : String) (l : List (String × α)) :
    List.lookup n (l.filter (fun p => !(p.1 == n))) = none := by
  induction l with
  | nil => rfl
  | cons p rest ih =>
    obtain ⟨k, v⟩ := p
    rw [List.filter_cons]
    by_cases hp : k = n
    · rw [if_neg (by simp [hp])]
      exact ih
    · rw [if_pos (by simp [hp])]
      have hbeq : (n == k) = false := by
        simp [Ne.symm hp]
      simp [List.lookup, hbeq, ih]

/-- Draining a queue of valid patch locations succeeds and equals the
spec-side fold of single patches. -/
theorem patch_list_ok : ∀ (locs : List PatchLoc) (a : Assembler) (t : Nat),
    (∀ loc ∈ locs, LocOK a.asmoffset a.ops.length loc) →
    patch_list a locs t = .ok { a with
      ops := locs.foldl (fun o loc => opsPatchSpec a.asmoffset o loc t) a.ops }
  | [], a, t, _ => rfl
  | loc :: rest, a, t, hv => by
    have h0 : LocOK a.asmoffset a.ops.length loc := hv loc (by simp)
    have hv2 : ∀ l ∈ rest,
        LocOK ({ a with ops := opsPatchSpec a.asmoffset a.ops loc t } : Assembler).asmoffset
          ({ a with ops := opsPatchSpec a.asmoffset a.ops loc t } : Assembler).ops.length l := by
      intro l hl
      simp only
      rw [opsPatchSpec_length h0.2.1 h0.2.2.1]
      exact hv l (List.mem_cons_of_mem _ hl)
    simp only [patch_list, patch_loc_ok a loc t h0]
    rw [patch_list_ok rest _ t hv2]
    rfl

/-- C4: `local_label` drains every queued forward reference for the name,
patching each to the current offset, removes the queue, and records the
current offset as the (most recent) definition; `backward_reloc` patches
immediately to the recorded most recent definition, creating no
relocation record, and fails with `UnknownLabel` when there is none. -/
theorem C4_local_label_direction (a : Assembler) (n : String) (s : Nat)
    (hq : ∀ loc ∈ (List.lookup n a.local_relocs).getD [], LocOK a.asmoffset a.ops.length loc)
    (hbs : s ≤ a.ops.length)
    (hsz : s = 1 ∨ s = 2 ∨ s = 4 ∨ s = 8) :
    (∃ a', a.local_label n = .ok a' ∧
      List.lookup n a'.local_relocs = none ∧
      List.lookup n a'.local_labels = some a.offset ∧
      a'.ops = ((List.lookup n a.local_relocs).getD []).foldl
        (fun o loc => opsPatchSpec a.asmoffset o loc a.offset) a.ops ∧
      a'.global_relocs = a.global_relocs ∧
      a'.dynamic_relocs = a.dynamic_relocs ∧
      a'.asmoffset = a.asmoffset) ∧
    (∀ t, List.lookup n a.local_labels = some t →
      a.backward_reloc n s =
        .ok { a with ops := opsPatchSpec a.asmoffset a.ops ⟨a.offset, s⟩ t }) ∧
    (List.lookup n a.local_labels = none →
      a.backward_reloc n s = .error .UnknownLabel) := by
  refine ⟨?_, ?_, ?_⟩
  · unfold Assembler.local_label
    cases hlk : List.lookup n a.local_relocs with
    | none =>
      simp only [hlk, Option.getD_none, List.foldl_nil]
      refine ⟨_, rfl, ?_, ?_, rfl, rfl, rfl, rfl⟩
      · exact hlk
      · simp [List.lookup]
    | some relocs =>
      have hq2 : ∀ loc ∈ relocs, LocOK a.asmoffset a.ops.length loc := by
        rw [hlk] at hq
        exact hq
      have hpl := patch_list_ok relocs
        { a with local_relocs := a.local_relocs.filter (fun p => !(p.1 == n)) } a.offset hq2
      simp only [hlk, Option.getD_some, hpl]
      refine ⟨_, rfl, ?_, ?_, rfl, rfl, rfl, rfl⟩
      · exact lookup_filter_self n a.local_relocs
      · simp [List.lookup]
  · intro t ht
    unfold Assembler.backward_reloc
    simp only [ht]
    refine patch_loc_ok a ⟨a.offset, s⟩ t ⟨?_, ?_, ?_, hsz⟩
    · simp only [Assembler.offset]
      omega
    · simp only [Assembler.offset]
      omega
    · simp only [Assembler.offset]
      omega
  · intro ht
    unfold Assembler.backward_reloc
    simp only [ht]

/-- C4 witness: defining local label `L` in `exL` drains its queued
forward reference and records the definition at the current offset 5. -/
theorem C4_local_label_direction_witness :
    ∃ a', exL.local_label ("L") = .ok a' ∧
      List.lookup ("L") a'.local_labels = some 5 := by
  obtain ⟨⟨a', hok, _, hlab, _⟩, _, _⟩ :=
    C4_local_label_direction exL ("L") 1 (by decide) (by decide) (by decide)
  exact ⟨a', hok, by rw [hlab]; rfl⟩

theorem encode_globals_ok : ∀ (l : List (PatchLoc × String)) (a : Assembler),
    (∀ p ∈ l, LocOK a.asmoffset a.ops.length p.1) →
    (∀ p ∈ l, (List.lookup p.2 a.global_labels).isSome) →
    ∃ b, encode_globals_list a l = .ok b
  | [], a, _, _ => ⟨a, rfl⟩
  | (loc, name) :: rest, a, hv, hr => by
    have h0 : LocOK a.asmoffset a.ops.length loc := hv (loc, name) (by simp)
    obtain ⟨target, htg⟩ := Option.isSome_iff_exists.mp (hr (loc, name) (by simp))
    have hv2 : ∀ p ∈ rest,
        LocOK ({ a with ops := opsPatchSpec a.asmoffset a.ops loc target } : Assembler).asmoffset
          ({ a with ops := opsPatchSpec a.asmoffset a.ops loc target } : Assembler).ops.length p.1 := by
      intro p hp
      show LocOK a.asmoffset (opsPatchSpec a.asmoffset a.ops loc target).length p.1
      rw [opsPatchSpec_length h0.2.1 h0.2.2.1]
      exact hv p (List.mem_cons_of_mem _ hp)
    have hr2 : ∀ p ∈ rest,
        (List.lookup p.2 ({ a with ops := opsPatchSpec a.asmoffset a.ops loc target } : Assembler).global_labels).isSome :=
      fun p hp => hr p (List.mem_cons_of_mem _ hp)
    obtain ⟨b, hb⟩ := encode_globals_ok rest _ hv2 hr2
    refine ⟨b, ?_⟩
    simp only [encode_globals_list, htg, patch_loc_ok a loc target h0]
    exact hb

theorem encode_globals_err : ∀ (l : List (PatchLoc × String)) (a : Assembler),
    (∀ p ∈ l, LocOK a.asmoffset a.ops.length p.1) →
    (∃ p ∈ l, List.lookup p.2 a.global_labels = none) →
    encode_globals_list a l = .error .UnknownLabel
  | [], _, _, hr => by
    obtain ⟨p, hp, _⟩ := hr
    exact absurd hp (by simp)
  | (loc, name) :: rest, a, hv, hr => by
    cases hlk : List.lookup name a.global_labels with
    | none => simp only [encode_globals_list, hlk]
    | some target =>
      have h0 : LocOK a.asmoffset a.ops.length loc := hv (loc, name) (by simp)
      have hv2 : ∀ p ∈ rest,
          LocOK ({ a with ops := opsPatchSpec a.asmoffset a.ops loc target } : Assembler).asmoffset
            ({ a with ops := opsPatchSpec a.asmoffset a.ops loc target } : Assembler).ops.length p.1 := by
        intro p hp
        show LocOK a.asmoffset (opsPatchSpec a.asmoffset a.ops loc target).length p.1
        rw [opsPatchSpec_length h0.2.1 h0.2.2.1]
        exact hv p (List.mem_cons_of_mem _ hp)
      have hr2 : ∃ p ∈ rest,
          List.lookup p.2 ({ a with ops := opsPatchSpec a.asmoffset a.ops loc target } : Assembler).global_labels = none := by
        obtain ⟨p, hp, hpn⟩ := hr
        rcases List.mem_cons.mp hp with heq | hmem
        · exfalso
          subst heq
          rw [hlk] at hpn
          exact absurd hpn (by simp)
        · exact ⟨p, hmem, hpn⟩
      simp only [encode_globals_list, hlk, patch_loc_ok a loc target h0]
      exact encode_globals_err rest _ hv2 hr2

theorem encode_globals_err_only : ∀ (l : List (PatchLoc × String)) (a : Assembler),
    (∀ p ∈ l, LocOK a.asmoffset a.ops.length p.1) →
    ∀ e, encode_globals_list a l = .error e → e = .UnknownLabel
  | [], _, _, e, h => absurd h (by simp [encode_globals_list])
  | (loc, name) :: rest, a, hv, e, h => by
    cases hlk : List.lookup name a.global_labels with
    | none =>
      simp only [encode_globals_list, hlk, Except.error.injEq] at h
      exact h.symm
    | some target =>
      have h0 : LocOK a.asmoffset a.ops.length loc := hv (loc, name) (by simp)
      have hv2 : ∀ p ∈ rest,
          LocOK ({ a with ops := opsPatchSpec a.asmoffset a.ops loc target } : Assembler).asmoffset
            ({ a with ops := opsPatchSpec a.asmoffset a.ops loc target } : Assembler).ops.length p.1 := by
        intro p hp
        show LocOK a.asmoffset (opsPatchSpec a.asmoffset a.ops loc target).length p.1
        rw [opsPatchSpec_length h0.2.1 h0.2.2.1]
        exact hv p (List.mem_cons_of_mem _ hp)
      simp only [encode_globals_list, hlk, patch_loc_ok a loc target h0] at h
      exact encode_globals_err_only rest _ hv2 e h

theorem encode_dynamics_ok : ∀ (l : List (PatchLoc × Nat)) (a : Assembler),
    (∀ p ∈ l, LocOK a.asmoffset a.ops.length p.1) →
    (∀ p ∈ l, ∃ t, a.dynamic_labels.get? p.2 = some (some t)) →
    ∃ b, encode_dynamics_list a l = .ok b
  | [], a, _, _ => ⟨a, rfl⟩
  | (loc, id) :: rest, a, hv, hr => by
    have h0 : LocOK a.asmoffset a.ops.length loc := hv (loc, id) (by simp)
    obtain ⟨target, htg⟩ := hr (loc, id) (by simp)
    have hv2 : ∀ p ∈ rest,
        LocOK ({ a with ops := opsPatchSpec a.asmoffset a.ops loc target } : Assembler).asmoffset
          ({ a with ops := opsPatchSpec a.asmoffset a.ops loc target } : Assembler).ops.length p.1 := by
      intro p hp
      show LocOK a.asmoffset (opsPatchSpec a.asmoffset a.ops loc target).length p.1
      rw [opsPatchSpec_length h0.2.1 h0.2.2.1]
      exact hv p (List.mem_cons_of_mem _ hp)
    have hr2 : ∀ p ∈ rest,
        ∃ t, ({ a with ops := opsPatchSpec a.asmoffset a.ops loc target } : Assembler).dynamic_labels.get? p.2 = some (some t) :=
      fun p hp => hr p (List.mem_cons_of_mem _ hp)
    obtain ⟨b, hb⟩ := encode_dynamics_ok rest _ hv2 hr2
    refine ⟨b, ?_⟩
    simp only [encode_dynamics_list, htg, patch_loc_ok a loc target h0]
    exact hb

theorem encode_dynamics_err : ∀ (l : List (PatchLoc × Nat)) (a : Assembler),
    (∀ p ∈ l, LocOK a.asmoffset a.ops.length p.1) →
    (∃ p ∈ l, a.dynamic_labels.get? p.2 = none ∨ a.dynamic_labels.get? p.2 = some none) →
    encode_dynamics_list a l = .error .UnknownLabel
  | [], _, _, hr => by
    obtain ⟨p, hp, _⟩ := hr
    exact absurd hp (by simp)
  | (loc, id) :: rest, a, hv, hr => by
    cases hlk : a.dynamic_labels.get? id with
    | none => simp only [encode_dynamics_list, hlk]
    | some slot =>
      cases slot with
      | none => simp only [encode_dynamics_list, hlk]
      | some target =>
        have h0 : LocOK a.asmoffset a.ops.length loc := hv (loc, id) (by simp)
        have hv2 : ∀ p ∈ rest,
            LocOK ({ a with ops := opsPatchSpec a.asmoffset a.ops loc target } : Assembler).asmoffset
              ({ a with ops := opsPatchSpec a.asmoffset a.ops loc target } : Assembler).ops.length p.1 := by
          intro p hp
          show LocOK a.asmoffset (opsPatchSpec a.asmoffset a.ops loc target).length p.1
          rw [opsPatchSpec_length h0.2.1 h0.2.2.1]
          exact hv p (List.mem_cons_of_mem _ hp)
        have hr2 : ∃ p ∈ rest,
            ({ a with ops := opsPatchSpec a.asmoffset a.ops loc target } : Assembler).dynamic_labels.get? p.2 = none ∨
            ({ a with ops := opsPatchSpec a.asmoffset a.ops loc target } : Assembler).dynamic_labels.get? p.2 = some none := by
          obtain ⟨p, hp, hpn⟩ := hr
          rcases List.mem_cons.mp hp with heq | hmem
          · exfalso
            subst heq
            rw [hlk] at hpn
            rcases hpn with h1 | h1 <;> exact absurd h1 (by simp)
          · exact ⟨p, hmem, hpn⟩
        simp only [encode_dynamics_list, hlk, patch_loc_ok a loc target h0]
        exact encode_dynamics_err rest _ hv2 hr2

theorem encode_dynamics_err_only : ∀ (l : List (PatchLoc × Nat)) (a : Assembler),
    (∀ p ∈ l, LocOK a.asmoffset a.ops.length p.1) →
    ∀ e, encode_dynamics_list a l = .error e → e = .UnknownLabel
  | [], _, _, e, h => absurd h (by simp [encode_dynamics_list])
  | (loc, id) :: rest, a, hv, e, h => by
    cases hlk : a.dynamic_labels.get? id with
    | none =>
      simp only [encode_dynamics_list, hlk, Except.error.injEq] at h
      exact h.symm
    | some slot =>
      cases slot with
      | none =>
        simp only [encode_dynamics_list, hlk, Except.error.injEq] at h
        exact h.symm
      | some target =>
        have h0 : LocOK a.asmoffset a.ops.length loc := hv (loc, id) (by simp)
        have hv2 : ∀ p ∈ rest,
            LocOK ({ a with ops := opsPatchSpec a.asmoffset a.ops loc target } : Assembler).asmoffset
              ({ a with ops := opsPatchSpec a.asmoffset a.ops loc target } : Assembler).ops.length p.1 := by
          intro p hp
          show LocOK a.asmoffset (opsPatchSpec a.asmoffset a.ops loc target).length p.1
          rw [opsPatchSpec_length h0.2.1 h0.2.2.1]
          exact hv p (List.mem_cons_of_mem _ hp)
        simp only [encode_dynamics_list, hlk, patch_loc_ok a loc target h0] at h
        exact encode_dynamics_err_only rest _ hv2 e h

/-- C5: under well-formed patch locations, the relocation-resolution pass
run at commit (and at the end of alter) fails — always with
`UnknownLabel` — exactly when some pending global relocation names an
undefined global label, or some pending dynamic relocation names an
unallocated or undefined slot, or a non-empty local forward-reference
queue remains; on success the global and dynamic relocation tables are
left empty. -/
theorem C5_unknown_label_characterization (a : Assembler)
    (hg : ∀ p ∈ a.global_relocs, LocOK a.asmoffset a.ops.length p.1)
    (hd : ∀ p ∈ a.dynamic_relocs, LocOK a.asmoffset a.ops.length p.1)
    (hl : ∀ e ∈ a.local_relocs, e.2 ≠ []) :
    (a.encode_relocs = .error .UnknownLabel ↔
      ((∃ p ∈ a.global_relocs, List.lookup p.2 a.global_labels = none) ∨
       (∃ p ∈ a.dynamic_relocs, a.dynamic_labels.get? p.2 = none ∨
          a.dynamic_labels.get? p.2 = some none) ∨
       (∃ e ∈ a.local_relocs, e.2 ≠ []))) ∧
    (∀ e, a.encode_relocs = .error e → e = .UnknownLabel) ∧
    (∀ b, a.encode_relocs = .ok b → b.global_relocs = [] ∧ b.dynamic_relocs = []) := by
  by_cases hG : ∃ p ∈ a.global_relocs, List.lookup p.2 a.global_labels = none
  · have herr : encode_globals_list { a with global_relocs := [] } a.global_relocs
        = .error .UnknownLabel := encode_globals_err _ _ hg hG
    have hrel : a.encode_relocs = .error .UnknownLabel := by
      unfold Assembler.encode_relocs
      simp only [herr]
    refine ⟨⟨fun _ => Or.inl hG, fun _ => hrel⟩, ?_, ?_⟩
    · intro e he
      have h2 := hrel.symm.trans he
      simp only [Except.error.injEq] at h2
      exact h2.symm
    · intro b hb
      exact absurd (hrel.symm.trans hb) (by simp)
  · push_neg at hG
    have hr1 : ∀ p ∈ a.global_relocs, (List.lookup p.2 a.global_labels).isSome :=
      fun p hp => Option.isSome_iff_ne_none.mpr (hG p hp)
    obtain ⟨a1, h1⟩ := encode_globals_ok a.global_relocs { a with global_relocs := [] } hg hr1
    obtain ⟨hs1, hl1⟩ := encode_globals_shape _ _ _ h1
    have hd1 : a1.dynamic_relocs = a.dynamic_relocs := by rw [hs1]
    have hdl1 : a1.dynamic_labels = a.dynamic_labels := by rw [hs1]
    have hlr1 : a1.local_relocs = a.local_relocs := by rw [hs1]
    have hasm1 : a1.asmoffset = a.asmoffset := by rw [hs1]
    have hgr1 : a1.global_relocs = [] := by rw [hs1]
    have hvd : ∀ p ∈ a1.dynamic_relocs,
        LocOK ({ a1 with dynamic_relocs := [] } : Assembler).asmoffset
          ({ a1 with dynamic_relocs := [] } : Assembler).ops.length p.1 := by
      show ∀ p ∈ a1.dynamic_relocs, LocOK a1.asmoffset a1.ops.length p.1
      rw [hd1, hasm1, hl1]
      exact hd
    by_cases hD : ∃ p ∈ a.dynamic_relocs, a.dynamic_labels.get? p.2 = none ∨
        a.dynamic_labels.get? p.2 = some none
    · have herr2 : encode_dynamics_list { a1 with dynamic_relocs := [] } a1.dynamic_relocs
          = .error .UnknownLabel := by
        apply encode_dynamics_err _ _ hvd
        show ∃ p ∈ a1.dynamic_relocs, a1.dynamic_labels.get? p.2 = none ∨
          a1.dynamic_labels.get? p.2 = some none
        rw [hd1, hdl1]
        exact hD
      have hrel : a.encode_relocs = .error .UnknownLabel := by
        unfold Assembler.encode_relocs
        simp only [h1, herr2]
      refine ⟨⟨fun _ => Or.inr (Or.inl hD), fun _ => hrel⟩, ?_, ?_⟩
      · intro e he
        have h2 := hrel.symm.trans he
        simp only [Except.error.injEq] at h2
        exact h2.symm
      · intro b hb
        exact absurd (hrel.symm.trans hb) (by simp)
    · push_neg at hD
      have hr2 : ∀ p ∈ a1.dynamic_relocs,
          ∃ t, ({ a1 with dynamic_relocs := [] } : Assembler).dynamic_labels.get? p.2
            = some (some t) := by
        show ∀ p ∈ a1.dynamic_relocs, ∃ t, a1.dynamic_labels.get? p.2 = some (some t)
        rw [hd1, hdl1]
        intro p hp
        obtain ⟨hn, hsn⟩ := hD p hp
        cases hq : a.dynamic_labels.get? p.2 with
        | none => exact absurd hq hn
        | some slot =>
          cases slot with
          | none => exact absurd hq hsn
          | some t => exact ⟨t, rfl⟩
      obtain ⟨a2, h2⟩ := encode_dynamics_ok a1.dynamic_relocs
        { a1 with dynamic_relocs := [] } hvd hr2
      obtain ⟨hs2, hl2⟩ := encode_dynamics_shape _ _ _ h2
      have hlr2 : a2.local_relocs = a.local_relocs := by
        rw [hs2]
        show a1.local_relocs = a.local_relocs
        exact hlr1
      have hgr2 : a2.global_relocs = [] := by
        rw [hs2]
        show a1.global_relocs = []
        exact hgr1
      have hdr2 : a2.dynamic_relocs = [] := by rw [hs2]
      by_cases hL : a.local_relocs = []
      · have hok : a.encode_relocs = .ok a2 := by
          unfold Assembler.encode_relocs
          simp only [h1, h2]
          rw [if_pos (by rw [hlr2, hL]; rfl)]
        refine ⟨?_, ?_, ?_⟩
        · constructor
          · intro he
            exact absurd (hok.symm.trans he) (by simp)
          · intro hcond
            exfalso
            rcases hcond with hc | hc | hc
            · obtain ⟨p, hp, hpn⟩ := hc
              exact hG p hp hpn
            · obtain ⟨p, hp, hpn⟩ := hc
              obtain ⟨hn, hsn⟩ := hD p hp
              rcases hpn with h | h
              · exact hn h
              · exact hsn h
            · obtain ⟨e, he, _⟩ := hc
              rw [hL] at he
              exact absurd he (by simp)
        · intro e he
          exact absurd (hok.symm.trans he) (by simp)
        · intro b hb
          have h3 := hok.symm.trans hb
          simp only [Except.ok.injEq] at h3
          subst h3
          exact ⟨hgr2, hdr2⟩
      · have hne : a2.local_relocs.isEmpty = false := by
          rw [hlr2]
          cases hcl : a.local_relocs with
          | nil => exact absurd hcl hL
          | cons x xs => rfl
        have hrel : a.encode_relocs = .error .UnknownLabel := by
          unfold Assembler.encode_relocs
          simp only [h1, h2]
          rw [if_neg (by simp [hne])]
        have hthird : ∃ e ∈ a.local_relocs, e.2 ≠ [] := by
          cases hcl : a.local_relocs with
          | nil => exact absurd hcl hL
          | cons x xs =>
            refine ⟨x, ?_, ?_⟩
            · exact List.mem_cons_self x xs
            · exact hl x (by rw [hcl]; exact List.mem_cons_self x xs)
        refine ⟨⟨fun _ => Or.inr (Or.inr hthird), fun _ => hrel⟩, ?_, ?_⟩
        · intro e he
          have h3 := hrel.symm.trans he
          simp only [Except.error.injEq] at h3
          exact h3.symm
        · intro b hb
          exact absurd (hrel.symm.trans hb) (by simp)

/-- C5 witness: in `exR` the single pending global relocation resolves, so
the pass succeeds and drains the relocation tables; it does not fail with
`UnknownLabel`. -/
theorem C5_unknown_label_characterization_witness :
    ¬ exR.encode_relocs = .error .UnknownLabel := by
  have h := C5_unknown_label_characterization exR (by decide) (by decide) (by decide)
  intro hcontra
  rcases h.1.mp hcontra with hc | hc | hc
  · exact (by decide : ¬ ∃ p ∈ exR.global_relocs, List.lookup p.2 exR.global_labels = none) hc
  · exact (by decide : ¬ ∃ p ∈ exR.dynamic_relocs, exR.dynamic_labels.get? p.2 = none ∨
      exR.dynamic_labels.get? p.2 = some none) hc
  · exact (by decide : ¬ ∃ e ∈ exR.local_relocs, e.2 ≠ []) hc

end Dynasm
